import Mathlib

/-!
Shallow embedding of the bitcask storage engine of nikosl/gkvd
(package bitcask: record codec, hint codec, load, Put/Get/Delete/HasKey,
Merge, Open/Close), together with theorems settling the specification
claims about it.

Bytes are modelled as natural numbers (real buffers hold values < 256);
buffers and files are lists of bytes; the keydir and the file table are
association lists keyed the way the Go maps are.  Go int64 fields that can
go negative (a keydir entry value position) are modelled as Int.
-/

set_option maxRecDepth 8000

namespace Gkvd

/-! ### Byte-level helpers (binary.BigEndian) -/

/-- Byte `i` (0 = least significant) of a natural number. -/
def byteOf (n i : Nat) : Nat := n / 2 ^ (8 * i) % 256

/-- Big-endian encoding of a uint32, as `binary.Write` emits it. -/
def be32enc (n : Nat) : List Nat := [byteOf n 3, byteOf n 2, byteOf n 1, byteOf n 0]

/-- Big-endian encoding of an int64 (two's complement), as `binary.Write` emits it. -/
def be64enc (p : Int) : List Nat :=
  let n := (p.emod (2 ^ 64)).toNat
  [byteOf n 7, byteOf n 6, byteOf n 5, byteOf n 4, byteOf n 3, byteOf n 2, byteOf n 1, byteOf n 0]

/-- Big-endian read of a uint32 from the front of a buffer. -/
def be32parse (l : List Nat) : Nat :=
  l.getD 0 0 * 2 ^ 24 + l.getD 1 0 * 2 ^ 16 + l.getD 2 0 * 2 ^ 8 + l.getD 3 0

/-- Big-endian read of a uint64 from the front of a buffer. -/
def be64parse (l : List Nat) : Nat :=
  l.getD 0 0 * 2 ^ 56 + l.getD 1 0 * 2 ^ 48 + l.getD 2 0 * 2 ^ 40 + l.getD 3 0 * 2 ^ 32 +
  l.getD 4 0 * 2 ^ 24 + l.getD 5 0 * 2 ^ 16 + l.getD 6 0 * 2 ^ 8 + l.getD 7 0

/-- Interpret a uint64 as an int64 (two's complement). -/
def asInt64 (n : Nat) : Int := if n < 2 ^ 63 then (n : Int) else (n : Int) - 2 ^ 64

/-- `binary.Read` of a uint32 from a `bytes.Buffer`: on a short buffer the
destination keeps its zero value and the buffer is drained. -/
def read4 (l : List Nat) : Nat × List Nat :=
  (if 4 ≤ l.length then be32parse l else 0, l.drop 4)

/-- `binary.Read` of an int64 from a `bytes.Buffer`. -/
def read8 (l : List Nat) : Int × List Nat :=
  (if 8 ≤ l.length then asInt64 (be64parse l) else 0, l.drop 8)

/-- `binary.Read` into a byte slice of length `n`: on a short buffer the
destination keeps its zeros and the buffer is drained. -/
def readN (n : Nat) (l : List Nat) : List Nat × List Nat :=
  (if n ≤ l.length then l.take n else List.replicate n 0, l.drop n)

/-! ### CRC-32/IEEE (`hash/crc32.ChecksumIEEE`)

The reflected CRC-32 with polynomial `0xEDB88320`: state starts at
`0xFFFFFFFF`, every message bit (bytes least-significant-bit first) is folded
in by one shift-and-conditional-xor step, and the final state is inverted. -/

/-- The reflected CRC-32/IEEE polynomial. -/
def crcPoly : Nat := 0xEDB88320

/-- One CRC bit step: shift the state right and fold the polynomial in when
the incoming bit disagrees with the state's low bit. -/
def crcBitStep (s : Nat) (b : Bool) : Nat :=
  (s >>> 1) ^^^ (if b != s.testBit 0 then crcPoly else 0)

/-- The eight bits of a byte, least significant first. -/
def byteBits (x : Nat) : List Bool :=
  [x.testBit 0, x.testBit 1, x.testBit 2, x.testBit 3,
   x.testBit 4, x.testBit 5, x.testBit 6, x.testBit 7]

/-- Fold one byte into the CRC state. -/
def crcUpdate (s x : Nat) : Nat := (byteBits x).foldl crcBitStep s

/-- `crc32.ChecksumIEEE` over a byte list. -/
def crc32 (data : List Nat) : Nat := (data.foldl crcUpdate 0xFFFFFFFF) ^^^ 0xFFFFFFFF

/-! ### Record codec -/

def headerSize : Nat := 16
def threshold : Nat := 8 * 1000000
def maxKsz : Nat := 1024
def maxVsz : Nat := 2048

/-- The on-disk record (struct `entry`). -/
structure entry where
  crc : Nat
  timestamp : Nat
  ksz : Nat
  vsz : Nat
  key : List Nat
  value : List Nat
deriving DecidableEq, Repr

/-- The bytes `encode` checksums: `timestamp‖ksz‖vsz‖key‖value`. -/
def payload (e : entry) : List Nat :=
  be32enc e.timestamp ++ (be32enc e.ksz ++ (be32enc e.vsz ++ (e.key ++ e.value)))

inductive CodecErr where
  | oversized
  | checksumMismatch
deriving DecidableEq, Repr

/-- `encode`: append the record to `buff`; returns the new buffer, the value
of `buff.Len()` after the write, and the entry with its `crc` field set (the
Go function mutates `e.crc` in place). -/
def encode (buff : List Nat) (e : entry) : Except CodecErr (List Nat × Nat × entry) :=
  if maxKsz < e.ksz ∨ maxVsz < e.vsz then .error .oversized
  else
    let d := payload e
    let c := crc32 d
    let out := buff ++ be32enc c ++ d
    .ok (out, out.length, { e with crc := c })

/-- The bytes `encode` appends for `e` (empty when it fails, matching the
callers that discard the error and write the untouched buffer). -/
def encBytes (e : entry) : List Nat :=
  match encode [] e with
  | .ok (bs, _, _) => bs
  | .error _ => []

/-- `decode`: reads the four header fields, rejects oversized dimensions,
reads key and value, then checks the stored CRC against the checksum of every
byte after the CRC field of the buffer as it stood on entry.  The result is
the entry as mutated so far (callers such as `load` use its fields even when
an error is reported), the error if any, and the unread remainder of the
buffer (`binary.Read` consumes from the `bytes.Buffer`). -/
def decodeRaw (buf : List Nat) : entry × Option CodecErr × List Nat :=
  let crc := (read4 buf).1
  let b1 := (read4 buf).2
  let ts := (read4 b1).1
  let b2 := (read4 b1).2
  let ksz := (read4 b2).1
  let b3 := (read4 b2).2
  let vsz := (read4 b3).1
  let b4 := (read4 b3).2
  if maxKsz < ksz ∨ maxVsz < vsz then
    (⟨crc, ts, ksz, vsz, [], []⟩, some .oversized, b4)
  else
    let key := (readN ksz b4).1
    let b5 := (readN ksz b4).2
    let value := (readN vsz b5).1
    let b6 := (readN vsz b5).2
    if crc = crc32 (buf.drop 4) then
      (⟨crc, ts, ksz, vsz, key, value⟩, none, b6)
    else
      (⟨crc, ts, ksz, vsz, key, value⟩, some .checksumMismatch, b6)

/-! ### CRC-32 facts: bounds, GF(2)-linearity, single-bit sensitivity -/

/-- Fold a stream of bits into the CRC state. -/
def crcFold (s : Nat) (bs : List Bool) : Nat := bs.foldl crcBitStep s

/-- The bit stream of a byte list, each byte least-significant-bit first. -/
def bitsOf (data : List Nat) : List Bool := (data.map byteBits).flatten

theorem foldl_crcUpdate_eq_bits (data : List Nat) (s : Nat) :
    data.foldl crcUpdate s = crcFold s (bitsOf data) := by
  induction data generalizing s with
  | nil => rfl
  | cons x xs ih =>
      simp only [List.foldl_cons, bitsOf, List.map_cons, List.flatten_cons, crcFold,
        List.foldl_append]
      exact ih (crcUpdate s x)

theorem crc32_eq_bits (data : List Nat) :
    crc32 data = crcFold 0xFFFFFFFF (bitsOf data) ^^^ 0xFFFFFFFF := by
  rw [crc32, foldl_crcUpdate_eq_bits]

theorem xor_right_cancel {a b c : Nat} (h : a ^^^ c = b ^^^ c) : a = b := by
  have h2 := congrArg (· ^^^ c) h
  simpa [Nat.xor_assoc, Nat.xor_self, Nat.xor_zero] using h2

theorem xor_eq_self {u D : Nat} (h : u ^^^ D = u) : D = 0 := by
  have h2 := congrArg (u ^^^ ·) h
  simpa [← Nat.xor_assoc, Nat.xor_self, Nat.zero_xor] using h2

theorem xor_mix (a b x y : Nat) : (a ^^^ x) ^^^ (b ^^^ y) = (a ^^^ b) ^^^ (x ^^^ y) := by
  apply Nat.eq_of_testBit_eq
  intro i
  simp only [Nat.testBit_xor]
  cases a.testBit i <;> cases b.testBit i <;> cases x.testBit i <;> cases y.testBit i <;> rfl

theorem shiftRight_one_xor (s t : Nat) : (s ^^^ t) >>> 1 = (s >>> 1) ^^^ (t >>> 1) := by
  apply Nat.eq_of_testBit_eq
  intro i
  simp [Nat.testBit_shiftRight, Nat.testBit_xor]

theorem crcBitStep_lt {s : Nat} (b : Bool) (hs : s < 2 ^ 32) : crcBitStep s b < 2 ^ 32 := by
  unfold crcBitStep
  have h1 : s >>> 1 < 2 ^ 32 := by rw [Nat.shiftRight_one]; omega
  split
  · exact Nat.xor_lt_two_pow h1 (by norm_num [crcPoly])
  · simpa using h1

theorem crcFold_lt (bs : List Bool) : ∀ s : Nat, s < 2 ^ 32 → crcFold s bs < 2 ^ 32 := by
  induction bs with
  | nil => intro s hs; simpa [crcFold] using hs
  | cons b bs ih => intro s hs; exact ih _ (crcBitStep_lt b hs)

theorem crcBitStep_xor (s t : Nat) (b c : Bool) :
    crcBitStep (s ^^^ t) (b ^^ c) = crcBitStep s b ^^^ crcBitStep t c := by
  unfold crcBitStep
  rw [shiftRight_one_xor, xor_mix, Nat.testBit_xor]
  cases b <;> cases c <;> cases h1 : s.testBit 0 <;> cases h2 : t.testBit 0 <;>
    simp [Nat.xor_self, Nat.xor_zero, Nat.zero_xor]

theorem crcBitStep_not (u : Nat) (b : Bool) :
    crcBitStep u (!b) = crcBitStep u b ^^^ crcPoly := by
  unfold crcBitStep
  cases b <;> cases hu : u.testBit 0 <;>
    simp [Nat.xor_assoc, Nat.xor_self, Nat.xor_zero]

theorem crcZStep_ne_zero {D : Nat} (h0 : D ≠ 0) (hD : D < 2 ^ 32) :
    crcBitStep D false ≠ 0 ∧ crcBitStep D false < 2 ^ 32 := by
  refine ⟨?_, crcBitStep_lt false hD⟩
  unfold crcBitStep
  cases hb : D.testBit 0 with
  | false =>
      simp only [bne_self_eq_false, Bool.false_eq_true, if_false, Nat.xor_zero,
        Nat.shiftRight_one]
      rw [Nat.testBit_zero] at hb
      simp only [decide_eq_false_iff_not] at hb
      omega
  | true =>
      simp only [bne_iff_ne, ne_eq, Bool.false_eq_true, not_false_eq_true, if_true]
      intro h
      rw [Nat.xor_eq_zero, Nat.shiftRight_one] at h
      have h31 : D / 2 < 2 ^ 31 := by omega
      rw [h] at h31
      norm_num [crcPoly] at h31

theorem crcFold_xor_ne (cs : List Bool) :
    ∀ u D : Nat, D ≠ 0 → D < 2 ^ 32 → crcFold (u ^^^ D) cs ≠ crcFold u cs := by
  induction cs with
  | nil =>
      intro u D h0 _
      simpa [crcFold] using fun h => h0 (xor_eq_self h)
  | cons c cs ih =>
      intro u D h0 hD
      have key : crcBitStep (u ^^^ D) c = crcBitStep u c ^^^ crcBitStep D false := by
        simpa using crcBitStep_xor u D c false
      show crcFold (crcBitStep (u ^^^ D) c) cs ≠ crcFold (crcBitStep u c) cs
      rw [key]
      obtain ⟨hz0, hzlt⟩ := crcZStep_ne_zero h0 hD
      exact ih _ _ hz0 hzlt

theorem crcFold_flip (pre suf : List Bool) (b : Bool) {s : Nat} (hs : s < 2 ^ 32) :
    crcFold s (pre ++ (!b) :: suf) ≠ crcFold s (pre ++ b :: suf) := by
  have hu : crcFold s pre < 2 ^ 32 := crcFold_lt pre s hs
  show List.foldl crcBitStep s (pre ++ (!b) :: suf) ≠ List.foldl crcBitStep s (pre ++ b :: suf)
  rw [List.foldl_append, List.foldl_append, List.foldl_cons, List.foldl_cons]
  rw [crcBitStep_not]
  exact crcFold_xor_ne suf _ crcPoly (by norm_num [crcPoly]) (by norm_num [crcPoly])

theorem byteBits_getElem (x j : Nat) (hj : j < 8) :
    (byteBits x).getD j false = x.testBit j := by
  interval_cases j <;> rfl

theorem byteBits_flip (x j : Nat) (hj : j < 8) :
    byteBits (x ^^^ 2 ^ j) = (byteBits x).set j (!x.testBit j) := by
  interval_cases j <;>
    · simp only [byteBits, Nat.testBit_xor, Nat.testBit_two_pow, List.set]
      simp

theorem set_append_cons {α : Type} (a : List α) (b v : α) (c : List α) :
    (a ++ b :: c).set a.length v = a ++ v :: c := by
  induction a with
  | nil => rfl
  | cons x xs ih => simp [List.set, ih]

theorem bitsOf_append (l1 l2 : List Nat) : bitsOf (l1 ++ l2) = bitsOf l1 ++ bitsOf l2 := by
  simp [bitsOf]

theorem bitsOf_cons (x : Nat) (l : List Nat) : bitsOf (x :: l) = byteBits x ++ bitsOf l := by
  simp [bitsOf]

/-- An element of a list, addressed right after a prefix. -/
theorem getD_append_cons {α : Type} (a : List α) (b : α) (c : List α) (dflt : α) :
    (a ++ b :: c).getD a.length dflt = b := by
  induction a with
  | nil => rfl
  | cons x xs ih => simpa using ih

/-- Flipping one bit of one byte changes the CRC-32 checksum. -/
theorem crc32_set_flip (d : List Nat) (i j : Nat) (hi : i < d.length) (hj : j < 8) :
    crc32 (d.set i (d.getD i 0 ^^^ 2 ^ j)) ≠ crc32 d := by
  obtain ⟨A, x, B, hAB, hlen⟩ : ∃ A x B, d = A ++ x :: B ∧ A.length = i := by
    refine ⟨d.take i, d[i], d.drop (i + 1), ?_, by simp [List.length_take]; omega⟩
    conv_lhs => rw [← List.take_append_drop i d]
    rw [List.drop_eq_getElem_cons hi]
  subst hAB
  subst hlen
  rw [getD_append_cons, set_append_cons]
  obtain ⟨P, Q, hPQ, hPl⟩ : ∃ P Q, byteBits x = P ++ x.testBit j :: Q ∧ P.length = j := by
    have hj8 : j < (byteBits x).length := by simp [byteBits]; omega
    refine ⟨(byteBits x).take j, (byteBits x).drop (j + 1), ?_, by simp [byteBits]; omega⟩
    conv_lhs => rw [← List.take_append_drop j (byteBits x)]
    rw [List.drop_eq_getElem_cons hj8]
    congr 2
    rw [← byteBits_getElem x j hj]
    simp [List.getD_eq_getElem?_getD, List.getElem?_eq_getElem hj8]
  have hflip : byteBits (x ^^^ 2 ^ j) = P ++ (!x.testBit j) :: Q := by
    rw [byteBits_flip x j hj, hPQ, ← hPl, set_append_cons]
  intro hcon
  rw [crc32_eq_bits, crc32_eq_bits] at hcon
  have hfold := xor_right_cancel hcon
  rw [bitsOf_append, bitsOf_cons, bitsOf_append, bitsOf_cons, hflip, hPQ] at hfold
  have hassoc : ∀ (z : Bool),
      bitsOf A ++ ((P ++ z :: Q) ++ bitsOf B)
      = (bitsOf A ++ P) ++ z :: (Q ++ bitsOf B) := by
    intro z; simp
  rw [hassoc, hassoc] at hfold
  exact crcFold_flip _ _ _ (by norm_num) hfold

/-! ### Codec lemmas -/

theorem crc32_lt (data : List Nat) : crc32 data < 2 ^ 32 := by
  rw [crc32_eq_bits]
  exact Nat.xor_lt_two_pow (crcFold_lt _ _ (by norm_num)) (by norm_num)

theorem be32parse_enc (n : Nat) (rest : List Nat) :
    be32parse (be32enc n ++ rest) = n % 2 ^ 32 := by
  simp only [be32enc, byteOf, List.cons_append, List.nil_append, be32parse,
    List.getD_cons_zero, List.getD_cons_succ]
  omega

theorem getD_set_self (l : List Nat) (i : Nat) (a : Nat) (h : i < l.length) :
    (l.set i a).getD i 0 = a := by
  simp [List.getD_eq_getElem?_getD, List.getElem?_set_self h]

theorem getD_set_ne (l : List Nat) {n m : Nat} (a : Nat) (h : n ≠ m) :
    (l.set n a).getD m 0 = l.getD m 0 := by
  simp [List.getD_eq_getElem?_getD, List.getElem?_set_ne h]

theorem getD_drop (l : List Nat) (n k : Nat) : (l.drop n).getD k 0 = l.getD (n + k) 0 := by
  simp [List.getD_eq_getElem?_getD, List.getElem?_drop]

theorem be32parse_set_ge (l : List Nat) (i : Nat) (a : Nat) (h : 4 ≤ i) :
    be32parse (l.set i a) = be32parse l := by
  unfold be32parse
  rw [getD_set_ne l a (show i ≠ 0 by omega), getD_set_ne l a (show i ≠ 1 by omega),
    getD_set_ne l a (show i ≠ 2 by omega), getD_set_ne l a (show i ≠ 3 by omega)]

theorem be32parse_set_digit_ne (l : List Nat) (i : Nat) (hi4 : i < 4) (hil : i < l.length)
    (x : Nat) (hne : x ≠ l.getD i 0) :
    be32parse (l.set i x) ≠ be32parse l := by
  have hcond : ∀ m, (l.set i x).getD m 0 = if i = m then x else l.getD m 0 := by
    intro m
    by_cases h : i = m
    · subst h; rw [if_pos rfl]; exact getD_set_self l i x hil
    · rw [if_neg h]; exact getD_set_ne l x h
  simp only [be32parse, hcond]
  interval_cases i <;> split_ifs <;> first | contradiction | omega

theorem read4_snd (l : List Nat) : (read4 l).2 = l.drop 4 := rfl

def parsedCrc (buf : List Nat) : Nat := (read4 buf).1
def parsedKsz (buf : List Nat) : Nat := (read4 (buf.drop 8)).1
def parsedVsz (buf : List Nat) : Nat := (read4 (buf.drop 12)).1

theorem decodeRaw_err_eq (buf : List Nat) : (decodeRaw buf).2.1 =
    if maxKsz < parsedKsz buf ∨ maxVsz < parsedVsz buf then some CodecErr.oversized
    else if parsedCrc buf = crc32 (buf.drop 4) then none
    else some CodecErr.checksumMismatch := by
  simp only [decodeRaw, parsedCrc, parsedKsz, parsedVsz, read4_snd, List.drop_drop]
  norm_num
  split
  · rfl
  · split <;> rfl

theorem decodeRaw_rest_eq (buf : List Nat) : (decodeRaw buf).2.2 =
    if maxKsz < parsedKsz buf ∨ maxVsz < parsedVsz buf then buf.drop 16
    else buf.drop (16 + parsedKsz buf + parsedVsz buf) := by
  simp only [decodeRaw, parsedCrc, parsedKsz, parsedVsz, read4_snd, List.drop_drop]
  norm_num
  split
  · rfl
  · split <;> simp only [readN, List.drop_drop]

theorem encode_ok (e : entry) (hkb : e.ksz ≤ maxKsz) (hvb : e.vsz ≤ maxVsz) :
    encode [] e = .ok (be32enc (crc32 (payload e)) ++ payload e,
      (be32enc (crc32 (payload e)) ++ payload e).length,
      { e with crc := crc32 (payload e) }) := by
  have hno : ¬ (maxKsz < e.ksz ∨ maxVsz < e.vsz) := by
    rintro (h | h)
    · exact absurd h (Nat.not_lt.mpr hkb)
    · exact absurd h (Nat.not_lt.mpr hvb)
  rw [encode, if_neg hno]
  rfl

theorem encBytes_eq (e : entry) (hkb : e.ksz ≤ maxKsz) (hvb : e.vsz ≤ maxVsz) :
    encBytes e = be32enc (crc32 (payload e)) ++ payload e := by
  rw [encBytes, encode_ok e hkb hvb]

theorem payload_length (e : entry) :
    (payload e).length = 12 + e.key.length + e.value.length := by
  simp [payload, be32enc]
  omega

theorem encBytes_length (e : entry) (hkb : e.ksz ≤ maxKsz) (hvb : e.vsz ≤ maxVsz) :
    (encBytes e).length = 16 + e.key.length + e.value.length := by
  rw [encBytes_eq e hkb hvb]
  simp [be32enc, payload_length]
  omega

theorem decodeRaw_encBytes (e : entry) (hk : e.ksz = e.key.length) (hv : e.vsz = e.value.length)
    (hkb : e.ksz ≤ maxKsz) (hvb : e.vsz ≤ maxVsz) (hts : e.timestamp < 2 ^ 32) :
    decodeRaw (encBytes e) = ({ e with crc := crc32 (payload e) }, none, []) := by
  have hno : ¬ (maxKsz < e.ksz ∨ maxVsz < e.vsz) := by
    rintro (h | h)
    · exact absurd h (Nat.not_lt.mpr hkb)
    · exact absurd h (Nat.not_lt.mpr hvb)
  have hklt : e.ksz < 2 ^ 32 := by
    have h := hkb; simp only [maxKsz] at h; omega
  have hvlt : e.vsz < 2 ^ 32 := by
    have h := hvb; simp only [maxVsz] at h; omega
  rw [encBytes_eq e hkb hvb]
  have h0 : read4 (be32enc (crc32 (payload e)) ++ payload e) = (crc32 (payload e), payload e) := by
    rw [read4, if_pos (by simp [be32enc]), be32parse_enc, Nat.mod_eq_of_lt (crc32_lt _)]
    rfl
  have h1 : read4 (payload e) =
      (e.timestamp, be32enc e.ksz ++ (be32enc e.vsz ++ (e.key ++ e.value))) := by
    rw [payload, read4, if_pos (by simp [be32enc]), be32parse_enc, Nat.mod_eq_of_lt hts]
    rfl
  have h2 : read4 (be32enc e.ksz ++ (be32enc e.vsz ++ (e.key ++ e.value))) =
      (e.ksz, be32enc e.vsz ++ (e.key ++ e.value)) := by
    rw [read4, if_pos (by simp [be32enc]), be32parse_enc, Nat.mod_eq_of_lt hklt]
    rfl
  have h3 : read4 (be32enc e.vsz ++ (e.key ++ e.value)) = (e.vsz, e.key ++ e.value) := by
    rw [read4, if_pos (by simp [be32enc]), be32parse_enc, Nat.mod_eq_of_lt hvlt]
    rfl
  have h4 : readN e.ksz (e.key ++ e.value) = (e.key, e.value) := by
    rw [readN, hk, if_pos (by simp), List.take_left, List.drop_left]
  have h5 : readN e.vsz e.value = (e.value, []) := by
    rw [readN, hv, if_pos le_rfl, List.take_length, List.drop_length]
  have hdrop : (be32enc (crc32 (payload e)) ++ payload e).drop 4 = payload e := by
    simp [be32enc]
  simp only [decodeRaw, h0, h1, h2, h3, h4, h5, hdrop]
  simp [hno]

/-- Flip bit `j` of byte `i` of a buffer. -/
def flipBit (l : List Nat) (i j : Nat) : List Nat := l.set i (l.getD i 0 ^^^ 2 ^ j)

/-- C5: for every record whose size fields agree with its key and value and
respect the bounds, and whose `crc` field carries the checksum that `encode`
itself stores into the record, encoding into a fresh buffer succeeds, the
returned length is `headerSize + ksz + vsz`, and decoding the emitted bytes
returns the record, no error, and an empty remainder. -/
theorem C5_encode_decode_roundtrip (e : entry)
    (hk : e.ksz = e.key.length) (hv : e.vsz = e.value.length)
    (hkb : e.ksz ≤ maxKsz) (hvb : e.vsz ≤ maxVsz) (hts : e.timestamp < 2 ^ 32)
    (hcrc : e.crc = crc32 (payload e)) :
    encode [] e = .ok (encBytes e, headerSize + e.ksz + e.vsz, e) ∧
    decodeRaw (encBytes e) = (e, none, []) := by
  have hkv : { e with crc := crc32 (payload e) } = e := by rw [← hcrc]
  constructor
  · rw [encode_ok e hkb hvb, encBytes_eq e hkb hvb, hkv]
    have hlen : (be32enc (crc32 (payload e)) ++ payload e).length
        = headerSize + e.ksz + e.vsz := by
      simp [be32enc, payload_length, headerSize, hk, hv]
      omega
    rw [hlen]
  · rw [decodeRaw_encBytes e hk hv hkb hvb hts, hkv]

theorem C5_encode_decode_roundtrip_witness :
    encode [] ⟨2296573779, 1234, 2, 3, [49, 50], [97, 98, 99]⟩ =
      .ok (encBytes ⟨2296573779, 1234, 2, 3, [49, 50], [97, 98, 99]⟩,
        headerSize + (2 : Nat) + 3, ⟨2296573779, 1234, 2, 3, [49, 50], [97, 98, 99]⟩) ∧
    decodeRaw (encBytes ⟨2296573779, 1234, 2, 3, [49, 50], [97, 98, 99]⟩) =
      (⟨2296573779, 1234, 2, 3, [49, 50], [97, 98, 99]⟩, none, []) :=
  C5_encode_decode_roundtrip ⟨2296573779, 1234, 2, 3, [49, 50], [97, 98, 99]⟩
    rfl rfl (by decide) (by decide) (by decide) (by decide)

/-- C6 counterexample: flipping the most significant bit of the `ksz` field
(byte 8) of a valid encoded record makes `decode` report the oversize error,
not `ChecksumMismatch` as the claim states. -/
theorem C6_counterexample :
    (decodeRaw (flipBit (encBytes ⟨2296573779, 1234, 2, 3, [49, 50], [97, 98, 99]⟩) 8 7)).2.1
        = some CodecErr.oversized ∧
    (decodeRaw (flipBit (encBytes ⟨2296573779, 1234, 2, 3, [49, 50], [97, 98, 99]⟩) 8 7)).2.1
        ≠ some CodecErr.checksumMismatch := by
  constructor
  · decide
  · decide

/-- C6 amended: flipping any single bit of a well-formed encoded record makes
`decode` fail — with `ChecksumMismatch`, except that a flip landing in the
`ksz` or `vsz` header field may push the parsed size over its bound, in which
case the oversize error is reported instead (the size check runs before the
CRC check). -/
theorem C6_single_bit_flip_detected (e : entry)
    (hkb : e.ksz ≤ maxKsz) (hvb : e.vsz ≤ maxVsz)
    (i j : Nat) (hi : i < (encBytes e).length) (hj : j < 8) :
    (decodeRaw (flipBit (encBytes e) i j)).2.1 = some CodecErr.checksumMismatch ∨
    (decodeRaw (flipBit (encBytes e) i j)).2.1 = some CodecErr.oversized := by
  have hbs := encBytes_eq e hkb hvb
  have hplen : 4 ≤ (encBytes e).length := by
    rw [hbs]; simp [be32enc]
  have hd4pay : (encBytes e).drop 4 = payload e := by
    rw [hbs]; simp [be32enc]
  have hbsparse : be32parse (encBytes e) = crc32 (payload e) := by
    rw [hbs, be32parse_enc, Nat.mod_eq_of_lt (crc32_lt _)]
  rw [decodeRaw_err_eq]
  by_cases hov : maxKsz < parsedKsz (flipBit (encBytes e) i j) ∨
      maxVsz < parsedVsz (flipBit (encBytes e) i j)
  · right; rw [if_pos hov]
  · left
    rw [if_neg hov, if_neg ?hne]
    case hne =>
      rcases Nat.lt_or_ge i 4 with hi4 | hi4
      · have h1 : (flipBit (encBytes e) i j).drop 4 = (encBytes e).drop 4 := by
          unfold flipBit
          rw [List.drop_set, if_pos (by omega)]
        have hlen2 : 4 ≤ (flipBit (encBytes e) i j).length := by
          unfold flipBit; rw [List.length_set]; omega
        show ¬ ((read4 (flipBit (encBytes e) i j)).1 = _)
        rw [read4]
        simp only [hlen2, if_pos]
        rw [h1, hd4pay]
        unfold flipBit
        intro heq
        refine be32parse_set_digit_ne (encBytes e) i hi4 hi
          ((encBytes e).getD i 0 ^^^ 2 ^ j) ?_ (heq.trans hbsparse.symm)
        intro hx
        have h2j : (2 : Nat) ^ j = 0 := xor_eq_self hx
        have := Nat.pos_pow_of_pos j (show 0 < 2 by norm_num)
        omega
      · have h1 : (flipBit (encBytes e) i j).drop 4
            = ((encBytes e).drop 4).set (i - 4) ((encBytes e).getD i 0 ^^^ 2 ^ j) := by
          unfold flipBit
          rw [List.drop_set, if_neg (by omega)]
        have hgd : (encBytes e).getD i 0 = ((encBytes e).drop 4).getD (i - 4) 0 := by
          rw [getD_drop]; congr 1; omega
        have hflip : crc32 ((flipBit (encBytes e) i j).drop 4) ≠ crc32 ((encBytes e).drop 4) := by
          rw [h1, hgd]
          exact crc32_set_flip ((encBytes e).drop 4) (i - 4) j
            (by rw [List.length_drop]; omega) hj
        have hlen2 : 4 ≤ (flipBit (encBytes e) i j).length := by
          unfold flipBit; rw [List.length_set]; omega
        have hcrcv : (read4 (flipBit (encBytes e) i j)).1 = crc32 (payload e) := by
          rw [read4]
          simp only [hlen2, if_pos]
          unfold flipBit
          rw [be32parse_set_ge _ _ _ hi4, hbsparse]
        show ¬ ((read4 (flipBit (encBytes e) i j)).1 = _)
        rw [hcrcv]
        intro heq
        exact hflip (by rw [← heq, hd4pay])

theorem C6_single_bit_flip_detected_witness :
    (decodeRaw (flipBit (encBytes ⟨2296573779, 1234, 2, 3, [49, 50], [97, 98, 99]⟩) 17 0)).2.1
        = some CodecErr.checksumMismatch ∨
    (decodeRaw (flipBit (encBytes ⟨2296573779, 1234, 2, 3, [49, 50], [97, 98, 99]⟩) 17 0)).2.1
        = some CodecErr.oversized :=
  C6_single_bit_flip_detected ⟨2296573779, 1234, 2, 3, [49, 50], [97, 98, 99]⟩
    (by decide) (by decide) 17 0 (by decide) (by decide)

/-- C7 counterexample: a buffer whose `ksz` field exceeds the bound makes
`decode` report the oversize error, yet the buffer has been consumed down to
its final byte — the caller's buffer is not left unchanged on the error
path. -/
theorem C7_counterexample :
    (decodeRaw [0, 0, 0, 0, 0, 0, 0, 0, 0, 0, 7, 208, 0, 0, 0, 0, 1]).2.1
        = some CodecErr.oversized ∧
    (decodeRaw [0, 0, 0, 0, 0, 0, 0, 0, 0, 0, 7, 208, 0, 0, 0, 0, 1]).2.2
        ≠ [0, 0, 0, 0, 0, 0, 0, 0, 0, 0, 7, 208, 0, 0, 0, 0, 1] := by
  constructor
  · decide
  · decide

/-- C7 amended: `decode` never rewrites the bytes of the caller's buffer, but
it does consume from it on the error paths: the remainder it leaves is always
a suffix (a `drop`) of the original contents, and on the size-bound error
path exactly the sixteen header bytes have been consumed. -/
theorem C7_decode_consumes_suffix (buf : List Nat) :
    (∃ n, (decodeRaw buf).2.2 = buf.drop n) ∧
    ((decodeRaw buf).2.1 = some CodecErr.oversized → (decodeRaw buf).2.2 = buf.drop 16) := by
  constructor
  · rw [decodeRaw_rest_eq]
    split
    · exact ⟨16, rfl⟩
    · exact ⟨16 + parsedKsz buf + parsedVsz buf, rfl⟩
  · intro hov
    rw [decodeRaw_rest_eq]
    rw [decodeRaw_err_eq] at hov
    by_cases h : maxKsz < parsedKsz buf ∨ maxVsz < parsedVsz buf
    · rw [if_pos h]
    · rw [if_neg h] at hov
      split at hov
      · exact absurd hov (by decide)
      · exact absurd hov (by decide)

theorem C7_decode_consumes_suffix_witness :
    (decodeRaw [0, 0, 0, 0, 0, 0, 0, 0, 0, 0, 7, 208, 0, 0, 0, 0, 1]).2.2
        = [0, 0, 0, 0, 0, 0, 0, 0, 0, 0, 7, 208, 0, 0, 0, 0, 1].drop 16 :=
  (C7_decode_consumes_suffix [0, 0, 0, 0, 0, 0, 0, 0, 0, 0, 7, 208, 0, 0, 0, 0, 1]).2
    (by decide)

/-! ### Hint codec (`encodeKeyEntry` / `decodeKeyEntry`) -/

/-- An in-memory keydir entry (struct `keyDirEntry`); `valuePos` is an int64
in Go and may go negative, so it is an `Int` here. -/
structure keyDirEntry where
  fileID : Nat
  valueSz : Nat
  valuePos : Int
  timestamp : Nat
  key : List Nat
deriving DecidableEq, Repr

/-- `encodeKeyEntry`: append a hint record
`timestamp‖len(key)‖valueSz‖valuePos‖key` to `buf`; returns the new buffer
and `buf.Len()`. -/
def encodeKeyEntry (buf : List Nat) (e : keyDirEntry) : List Nat × Nat :=
  let out := buf ++ (be32enc e.timestamp ++ (be32enc e.key.length ++
    (be32enc e.valueSz ++ (be64enc e.valuePos ++ e.key))))
  (out, out.length)

/-- `decodeKeyEntry`: fill the fields of `e0` from the front of the buffer;
`fileID` is preset by the caller and not touched.  Returns the filled entry
and the unread remainder (the Go function returns `buff.Len()`, which the
caller ignores). -/
def decodeKeyEntry (e0 : keyDirEntry) (buf : List Nat) : keyDirEntry × List Nat :=
  let ts := (read4 buf).1
  let b1 := (read4 buf).2
  let ks := (read4 b1).1
  let b2 := (read4 b1).2
  let vs := (read4 b2).1
  let b3 := (read4 b2).2
  let vp := (read8 b3).1
  let b4 := (read8 b3).2
  let key := (readN ks b4).1
  let b5 := (readN ks b4).2
  ({ e0 with timestamp := ts, valueSz := vs, valuePos := vp, key := key }, b5)

theorem read8_snd (l : List Nat) : (read8 l).2 = l.drop 8 := rfl

theorem readN_snd (n : Nat) (l : List Nat) : (readN n l).2 = l.drop n := rfl

theorem decodeKeyEntry_rest (e0 : keyDirEntry) (buf : List Nat) :
    (decodeKeyEntry e0 buf).2 = buf.drop (20 + (read4 (buf.drop 4)).1) := by
  simp only [decodeKeyEntry, read4_snd, read8_snd, readN_snd, List.drop_drop]

theorem decodeKeyEntry_rest_length (e0 : keyDirEntry) (buf : List Nat) (h : buf ≠ []) :
    (decodeKeyEntry e0 buf).2.length < buf.length := by
  rw [decodeKeyEntry_rest, List.length_drop]
  have : 0 < buf.length := List.length_pos.mpr h
  omega

theorem decodeRaw_rest_length (buf : List Nat) (h : buf ≠ []) :
    (decodeRaw buf).2.2.length < buf.length := by
  rw [decodeRaw_rest_eq]
  have : 0 < buf.length := List.length_pos.mpr h
  split <;> (rw [List.length_drop]; omega)

/-! ### Association-list maps (the Go `map`s, with deterministic order) -/

def alookup {α β : Type} [DecidableEq α] : List (α × β) → α → Option β
  | [], _ => none
  | (k', v) :: rest, k => if k' = k then some v else alookup rest k

def ainsert {α β : Type} [DecidableEq α] : List (α × β) → α → β → List (α × β)
  | [], k, v => [(k, v)]
  | (k', v') :: rest, k, v => if k' = k then (k, v) :: rest else (k', v') :: ainsert rest k v

def aerase {α β : Type} [DecidableEq α] : List (α × β) → α → List (α × β)
  | [], _ => []
  | (k', v') :: rest, k => if k' = k then aerase rest k else (k', v') :: aerase rest k

theorem alookup_ainsert_self {α β : Type} [DecidableEq α] (m : List (α × β)) (k : α) (v : β) :
    alookup (ainsert m k v) k = some v := by
  induction m with
  | nil => simp [ainsert, alookup]
  | cons p rest ih =>
      by_cases h : p.1 = k
      · simp [ainsert, alookup, h]
      · simp [ainsert, alookup, h, ih]

theorem alookup_ainsert_ne {α β : Type} [DecidableEq α] (m : List (α × β)) {k k' : α} (v : β)
    (h : k ≠ k') : alookup (ainsert m k v) k' = alookup m k' := by
  induction m with
  | nil => simp [ainsert, alookup, h]
  | cons p rest ih =>
      by_cases hp : p.1 = k
      · simp [ainsert, alookup, hp, h]
      · simp only [ainsert, if_neg hp, alookup]
        by_cases hp' : p.1 = k'
        · simp [hp']
        · simp [hp', ih]

theorem alookup_aerase_self {α β : Type} [DecidableEq α] (m : List (α × β)) (k : α) :
    alookup (aerase m k) k = none := by
  induction m with
  | nil => simp [aerase, alookup]
  | cons p rest ih =>
      by_cases h : p.1 = k
      · simp [aerase, h, ih]
      · simp [aerase, alookup, h, ih]

theorem alookup_aerase_ne {α β : Type} [DecidableEq α] (m : List (α × β)) {k k' : α}
    (h : k ≠ k') : alookup (aerase m k) k' = alookup m k' := by
  induction m with
  | nil => simp [aerase]
  | cons p rest ih =>
      by_cases hp : p.1 = k
      · simp [aerase, alookup, hp, h, ih]
      · simp only [aerase, if_neg hp, alookup]
        by_cases hp' : p.1 = k'
        · simp [hp']
        · simp [hp', ih]

/-! ### Engine state (struct `Bitcask`) -/

/-- A data file's on-disk content: the raw log bytes and, when the sibling
`.hint` file exists, its bytes. -/
structure DFile where
  data : List Nat
  hint : Option (List Nat)
deriving DecidableEq, Repr

/-- The engine: the directory contents (`{id}.bitcask.data` files with
optional hints), the active file's id and tracked write offset, the open
read-handle table `dataFiles` (the Bool is false for an entry holding a nil
pointer, as Merge produces), and the keydir. -/
structure Bitcask where
  dir : List (Nat × DFile)
  activeId : Nat
  activeOffset : Int
  dataFiles : List (Nat × Bool)
  keyDir : List (List Nat × keyDirEntry)
deriving DecidableEq, Repr

/-- `newDataFile`: the id is the wall-clock Unix second; `O_CREATE|O_APPEND`
keeps the bytes of an already-existing file of the same name. -/
def newDataFileFs (path : List (Nat × DFile)) (t : Nat) : List (Nat × DFile) :=
  match alookup path t with
  | some _ => path
  | none => ainsert path t ⟨[], some []⟩

/-- The active file's current on-disk content. -/
def activeFile (S : Bitcask) : DFile := (alookup S.dir S.activeId).getD ⟨[], some []⟩

/-- `log`: encode into a pooled buffer (the oversize error is discarded and
leaves the buffer empty), rotate when the active file's size on disk has
reached the threshold, append, and advance the tracked offset by the bytes
written. -/
def logOp (S : Bitcask) (t : Nat) (e : entry) : Bitcask :=
  let buffer := encBytes e
  let S1 := if threshold ≤ (activeFile S).data.length then
      { S with dir := newDataFileFs S.dir t, activeId := t, activeOffset := 0 }
    else S
  let f := activeFile S1
  let f2 : DFile := { f with data := f.data ++ buffer }
  { S1 with dir := ainsert S1.dir S1.activeId f2,
            activeOffset := S1.activeOffset + buffer.length }

/-- `hint`: append the encoded hint record to the active hint file. -/
def hintOp (S : Bitcask) (kd : keyDirEntry) : Bitcask :=
  let f := activeFile S
  let f2 : DFile := { f with hint := some ((f.hint.getD []) ++ (encodeKeyEntry [] kd).1) }
  { S with dir := ainsert S.dir S.activeId f2 }

/-- `Put`: build the record with the caller's clock second, log it (errors
discarded), register the active file handle, write the hint record, and
install the keydir entry with `valuePos = offset - vsz`.  The Go function
always returns nil. -/
def putOp (S : Bitcask) (t : Nat) (key value : List Nat) : Bitcask :=
  let e : entry := ⟨0, t % 2 ^ 32, key.length % 2 ^ 32, value.length % 2 ^ 32, key, value⟩
  let S1 := logOp S t e
  let S2 := match alookup S1.dataFiles S1.activeId with
    | some _ => S1
    | none => { S1 with dataFiles := ainsert S1.dataFiles S1.activeId true }
  let kd : keyDirEntry := ⟨S2.activeId, value.length % 2 ^ 32,
    S2.activeOffset - ((value.length % 2 ^ 32 : Nat) : Int), t % 2 ^ 32, key⟩
  let S3 := hintOp S2 kd
  { S3 with keyDir := ainsert S3.keyDir key kd }

/-- `ReadAt` of `sz` bytes at `pos`: a negative offset reads nothing, a short
read leaves the tail of the preallocated zero buffer; errors are discarded by
the caller. -/
def readAt (data : List Nat) (pos : Int) (sz : Nat) : List Nat :=
  if pos < 0 then List.replicate sz 0
  else
    let w := (data.drop pos.toNat).take sz
    w ++ List.replicate (sz - w.length) 0

/-- `Get` reaching a missing or nil read handle dereferences a nil pointer in
Go; the model reports it as an error value. -/
inductive GetErr where
  | nilFile
deriving DecidableEq, Repr

/-- `Get`: look the key up in the keydir; absent keys yield the key, an empty
value and no error.  Otherwise positional-read `valueSz` bytes at `valuePos`
from the referenced read handle. -/
def getOp (S : Bitcask) (key : List Nat) : List Nat × List Nat × Option GetErr :=
  match alookup S.keyDir key with
  | some kv =>
    match alookup S.dataFiles kv.fileID with
    | some true =>
        (key, readAt ((alookup S.dir kv.fileID).getD ⟨[], none⟩).data kv.valuePos kv.valueSz,
          none)
    | _ => (key, [], some .nilFile)
  | none => (key, [], none)

/-- `Delete` takes the write lock `db.mu` first.  A key absent from the
keydir then returns success with no other effect.  For a present key the code
builds the tombstone (zero `vsz`, empty value) and calls `log` while still
holding `db.mu`; `log` unconditionally re-acquires `db.mu`, and a
`sync.RWMutex` is not reentrant, so the call blocks forever: the tombstone is
never appended, the keydir entry is never removed, and `Delete` never
returns.  `some` models a call that returns, `none` that divergence. -/
def deleteOp (S : Bitcask) (_t : Nat) (key : List Nat) : Option Bitcask :=
  match alookup S.keyDir key with
  | none => some S
  | some _ => none

def hasKeyOp (S : Bitcask) (key : List Nat) : Bool := (alookup S.keyDir key).isSome

def keysOp (S : Bitcask) : List (List Nat) := S.keyDir.map (·.1)

def sizeOp (S : Bitcask) : Nat := S.keyDir.length

def isEmptyOp (S : Bitcask) : Bool := S.keyDir.length == 0

/-- `Sync` flushes OS buffers; no engine state changes. -/
def syncOp (S : Bitcask) : Bitcask := S

/-- `Close` drops every handle and the in-memory state; the directory
contents persist. -/
def closeOp (S : Bitcask) : List (Nat × DFile) := S.dir

/-- The hint-file branch of `load`, as structural recursion on a fuel bound:
decode hint records until the buffer is empty, inserting every record whose
`valueSz` is not zero.  Every iteration consumes at least one byte, so
`buffer.length` fuel always suffices. -/
def hintLoopAux (fid : Nat) : Nat → List (List Nat × keyDirEntry) → List Nat →
    List (List Nat × keyDirEntry)
  | 0, kd, _ => kd
  | fuel + 1, kd, buffer =>
    if buffer = [] then kd
    else
      let p := decodeKeyEntry ⟨fid, 0, 0, 0, []⟩ buffer
      if p.1.valueSz ≠ 0 then hintLoopAux fid fuel (ainsert kd p.1.key p.1) p.2
      else hintLoopAux fid fuel kd p.2

def hintLoop (fid : Nat) (kd : List (List Nat × keyDirEntry)) (buffer : List Nat) :
    List (List Nat × keyDirEntry) :=
  hintLoopAux fid buffer.length kd buffer

/-- The data-scan branch of `load`, as structural recursion on a fuel bound:
decode records until the buffer is empty (decode errors are discarded); a
record with zero `vsz` is skipped with `continue`, every other record
overwrites the keydir entry for its key, with `valuePos` set to
`size - offset` (the byte offset of the record's start, not of its value
payload). -/
def scanLoopAux (fid size : Nat) : Nat → List (List Nat × keyDirEntry) → List Nat →
    List (List Nat × keyDirEntry)
  | 0, kd, _ => kd
  | fuel + 1, kd, buffer =>
    if buffer = [] then kd
    else
      let offset := buffer.length
      let r := decodeRaw buffer
      if r.1.vsz = 0 then scanLoopAux fid size fuel kd r.2.2
      else scanLoopAux fid size fuel
        (ainsert kd r.1.key
          ⟨fid, r.1.value.length, (size : Int) - (offset : Int), r.1.timestamp, r.1.key⟩)
        r.2.2

def scanLoop (fid size : Nat) (kd : List (List Nat × keyDirEntry)) (buffer : List Nat) :
    List (List Nat × keyDirEntry) :=
  scanLoopAux fid size buffer.length kd buffer

/-- `load`: for every `.data` file of the directory (`ReadDir` order; the
model keeps the directory list in that order), open a read handle and
populate the keydir from the hint file when present, else by scanning the
data file. -/
def loadOp (S : Bitcask) : Bitcask :=
  S.dir.foldl (fun acc p =>
    let acc2 := { acc with dataFiles := ainsert acc.dataFiles p.1 true }
    match p.2.hint with
    | some h => { acc2 with keyDir := hintLoop p.1 acc2.keyDir h }
    | none => { acc2 with keyDir := scanLoop p.1 p.2.data.length acc2.keyDir p.2.data }) S

/-- `Open`: start from an empty keydir and file table, run load over the
directory, then create a fresh active file whose id is the clock second. -/
def openOp (t : Nat) (dir : List (Nat × DFile)) : Bitcask :=
  let db0 : Bitcask := ⟨dir, 0, 0, [], []⟩
  let db1 := loadOp db0
  { db1 with dir := newDataFileFs db1.dir t, activeId := t, activeOffset := 0 }

/-- `Merge`: snapshot the sealed ids, open a scratch engine in a temp
directory, and for every keydir entry not living in the active file: Get the
value (in Go this re-takes the read lock while the write lock is held),
Put it into the scratch engine, and rewire `db.dataFiles[fileID]` to the
scratch engine's handle for that id — which does not exist, so the slot
becomes a nil pointer.  The copy phase creates the scratch file names in the
main directory but `io.Copy` reads from a wrongly-built source path and
fails, leaving them empty.  Then the scratch keydir overwrites the main one
and the snapshotted sealed ids are deleted from the file table.  The final
`os.Remove` calls use bare file names and delete nothing. -/
def mergeOp (S : Bitcask) (t : Nat) : Bitcask :=
  let aid := S.activeId
  let fkey := (S.dataFiles.map (·.1)).filter (fun k => k ≠ aid)
  let dbm0 := openOp t []
  let step := fun (p : Bitcask × Bitcask) (kv : List Nat × keyDirEntry) =>
    if kv.2.fileID = aid then p
    else
      let dv := (getOp p.1 kv.1).2.1
      let dbm2 := putOp p.2 t kv.1 dv
      let df2 := ainsert p.1.dataFiles kv.2.fileID ((alookup dbm2.dataFiles kv.2.fileID).getD false)
      ({ p.1 with dataFiles := df2 }, dbm2)
  let p1 := S.keyDir.foldl step (S, dbm0)
  let S2 := { p1.1 with
    dir := p1.2.dir.foldl (fun d (q : Nat × DFile) => ainsert d q.1 ⟨[], some []⟩) p1.1.dir }
  let S3 := { S2 with
    keyDir := p1.2.keyDir.foldl
      (fun kd (q : List Nat × keyDirEntry) => ainsert kd q.1 q.2) S2.keyDir }
  { S3 with dataFiles := fkey.foldl (fun df k => aerase df k) S3.dataFiles }

/-! ### Engine invariants -/

theorem take_drop_append {α : Type} (l ext : List α) (n m : Nat) (h : n + m ≤ l.length) :
    ((l ++ ext).drop n).take m = (l.drop n).take m := by
  rw [List.drop_append_of_le_length (by omega),
    List.take_append_of_le_length (by rw [List.length_drop]; omega)]

theorem alookup_mem {α β : Type} [DecidableEq α] (m : List (α × β)) (k : α) (v : β)
    (h : alookup m k = some v) : (k, v) ∈ m := by
  induction m with
  | nil => simp [alookup] at h
  | cons p rest ih =>
      obtain ⟨p1, p2⟩ := p
      rw [alookup] at h
      by_cases hp : p1 = k
      · rw [if_pos hp] at h
        subst hp
        rw [Option.some.injEq] at h
        subst h
        exact List.mem_cons_self _ _
      · rw [if_neg hp] at h
        exact List.mem_cons_of_mem _ (ih h)

theorem alookup_none_of_ne {α β : Type} [DecidableEq α] (m : List (α × β)) (k : α)
    (h : ∀ p ∈ m, p.1 ≠ k) : alookup m k = none := by
  induction m with
  | nil => rfl
  | cons p rest ih =>
      rw [alookup, if_neg (h p (List.mem_cons_self p rest))]
      exact ih fun q hq => h q (List.mem_cons_of_mem _ hq)

theorem mem_ainsert {α β : Type} [DecidableEq α] (q : α × β) (m : List (α × β)) (k : α) (v : β)
    (h : q ∈ ainsert m k v) : q = (k, v) ∨ q ∈ m := by
  induction m with
  | nil => simpa [ainsert] using h
  | cons p rest ih =>
      by_cases hp : p.1 = k
      · rw [ainsert, if_pos hp] at h
        rcases List.mem_cons.mp h with h1 | h1
        · exact Or.inl h1
        · exact Or.inr (List.mem_cons_of_mem _ h1)
      · rw [ainsert, if_neg hp] at h
        rcases List.mem_cons.mp h with h1 | h1
        · exact Or.inr (h1 ▸ List.mem_cons_self p rest)
        · rcases ih h1 with h2 | h2
          · exact Or.inl h2
          · exact Or.inr (List.mem_cons_of_mem _ h2)

/-- All open read handles are real (non-nil) and point at files that exist. -/
def HandlesOk (S : Bitcask) : Prop :=
  ∀ id b, alookup S.dataFiles id = some b → b = true ∧ (alookup S.dir id).isSome = true

/-- A reachable in-session state at clock second `t`: every file id in the
directory is older than the clock, the active file exists with the tracked
offset equal to its size, and every read handle is valid. -/
def GoodState (S : Bitcask) (t : Nat) : Prop :=
  (∀ p ∈ S.dir, p.1 < t) ∧
  (∃ f, alookup S.dir S.activeId = some f ∧ S.activeOffset = (f.data.length : Int)) ∧
  HandlesOk S

/-- Key `k` is live with value `v`: the keydir entry points through a valid
read handle at a window of an existing file that holds exactly `v`. -/
def KeyLive (S : Bitcask) (k v : List Nat) : Prop :=
  ∃ e f, alookup S.keyDir k = some e ∧ e.valueSz = v.length ∧
    alookup S.dataFiles e.fileID = some true ∧ alookup S.dir e.fileID = some f ∧
    0 ≤ e.valuePos ∧ e.valuePos.toNat + v.length ≤ f.data.length ∧
    (f.data.drop e.valuePos.toNat).take v.length = v

theorem getOp_of_KeyLive {S : Bitcask} {k v : List Nat} (h : KeyLive S k v) :
    getOp S k = (k, v, none) := by
  obtain ⟨e, f, he, hsz, hdf, hdir, hpos, hwin, hval⟩ := h
  simp only [getOp, he, hdf, hdir, Option.getD_some]
  rw [readAt, if_neg (by omega), hsz, hval]
  simp

theorem GoodState.mono {S : Bitcask} {t t' : Nat} (hg : GoodState S t) (h : t ≤ t') :
    GoodState S t' := by
  obtain ⟨hids, hact, hh⟩ := hg
  exact ⟨fun p hp => lt_of_lt_of_le (hids p hp) h, hact, hh⟩

theorem logOp_keyDir (S : Bitcask) (t : Nat) (e : entry) :
    (logOp S t e).keyDir = S.keyDir := by
  rw [logOp]
  split <;> rfl

theorem logOp_dataFiles (S : Bitcask) (t : Nat) (e : entry) :
    (logOp S t e).dataFiles = S.dataFiles := by
  rw [logOp]
  split <;> rfl

theorem hintOp_keyDir (S : Bitcask) (kd : keyDirEntry) : (hintOp S kd).keyDir = S.keyDir := rfl

theorem hintOp_dataFiles (S : Bitcask) (kd : keyDirEntry) :
    (hintOp S kd).dataFiles = S.dataFiles := rfl

theorem hintOp_activeId (S : Bitcask) (kd : keyDirEntry) : (hintOp S kd).activeId = S.activeId :=
  rfl

theorem hintOp_activeOffset (S : Bitcask) (kd : keyDirEntry) :
    (hintOp S kd).activeOffset = S.activeOffset := rfl

theorem hintOp_dir_data (S : Bitcask) (kd : keyDirEntry) (id : Nat) (f : DFile)
    (h : alookup S.dir id = some f) :
    ∃ h2, alookup (hintOp S kd).dir id = some ⟨f.data, h2⟩ := by
  by_cases hid : S.activeId = id
  · subst hid
    have ha : activeFile S = f := by rw [activeFile, h]; rfl
    refine ⟨some ((f.hint.getD []) ++ (encodeKeyEntry [] kd).1), ?_⟩
    simp only [hintOp, ha, alookup_ainsert_self]
  · exact ⟨f.hint, by simpa [hintOp, alookup_ainsert_ne _ _ hid] using h⟩

theorem mem_newDataFileFs (p : Nat × DFile) (m : List (Nat × DFile)) (t : Nat)
    (h : p ∈ newDataFileFs m t) : p = (t, ⟨[], some []⟩) ∨ p ∈ m := by
  rw [newDataFileFs] at h
  cases halt : alookup m t with
  | some f => rw [halt] at h; exact Or.inr h
  | none => rw [halt] at h; exact mem_ainsert _ _ _ _ h

theorem logOp_dir_mono {S : Bitcask} {t : Nat} (e : entry) (hg : GoodState S t) :
    ∀ id f, alookup S.dir id = some f →
      ∃ tail, alookup (logOp S t e).dir id = some ⟨f.data ++ tail, f.hint⟩ := by
  intro id f h
  obtain ⟨hids, ⟨fa, hfa, hoff⟩, hh⟩ := hg
  by_cases hrot : threshold ≤ (activeFile S).data.length
  · have hfresh : alookup S.dir t = none :=
      alookup_none_of_ne _ _ fun p hp => by have := hids p hp; omega
    have hne : newDataFileFs S.dir t = ainsert S.dir t ⟨[], some []⟩ := by
      rw [newDataFileFs, hfresh]
    have hidlt : id < t := hids (id, f) (alookup_mem _ _ _ h)
    have hid_ne : (t : Nat) ≠ id := by omega
    refine ⟨[], ?_⟩
    simp only [logOp]
    simp only [if_pos hrot]
    rw [hne, alookup_ainsert_ne _ _ hid_ne, alookup_ainsert_ne _ _ hid_ne, h]
    simp
  · by_cases hid : S.activeId = id
    · subst hid
      have ha : activeFile S = f := by rw [activeFile, h]; rfl
      refine ⟨encBytes e, ?_⟩
      simp only [logOp]
      simp only [if_neg hrot]
      rw [ha, alookup_ainsert_self]
    · refine ⟨[], ?_⟩
      simp only [logOp]
      simp only [if_neg hrot]
      rw [alookup_ainsert_ne _ _ hid, h]
      simp

theorem logOp_active {S : Bitcask} {t : Nat} (e : entry) (hg : GoodState S t) :
    ∃ g h2, alookup (logOp S t e).dir (logOp S t e).activeId = some ⟨g ++ encBytes e, h2⟩ ∧
      (logOp S t e).activeOffset = (((g ++ encBytes e).length : Nat) : Int) := by
  obtain ⟨hids, ⟨fa, hfa, hoff⟩, hh⟩ := hg
  by_cases hrot : threshold ≤ ((alookup S.dir S.activeId).getD ⟨[], some []⟩).data.length
  · have hfresh : alookup S.dir t = none :=
      alookup_none_of_ne _ _ fun p hp => by have := hids p hp; omega
    have hne : newDataFileFs S.dir t = ainsert S.dir t ⟨[], some []⟩ := by
      rw [newDataFileFs, hfresh]
    have hact1 : (alookup (newDataFileFs S.dir t) t).getD ⟨[], some []⟩
        = (⟨[], some []⟩ : DFile) := by
      rw [hne, alookup_ainsert_self]
      rfl
    refine ⟨[], some [], ?_, ?_⟩
    · simp only [logOp, activeFile]
      simp only [if_pos hrot]
      rw [hact1]
      exact alookup_ainsert_self _ _ _
    · simp only [logOp, activeFile]
      simp only [if_pos hrot]
      simp
  · have ha : (alookup S.dir S.activeId).getD ⟨[], some []⟩ = fa := by rw [hfa]; rfl
    refine ⟨fa.data, fa.hint, ?_, ?_⟩
    · simp only [logOp, activeFile]
      simp only [if_neg hrot]
      rw [ha]
      exact alookup_ainsert_self _ _ _
    · simp only [logOp, activeFile]
      simp only [if_neg hrot]
      rw [hoff]
      simp [Nat.add_comm]

theorem GoodState_logOp {S : Bitcask} {t : Nat} (e : entry) (hg : GoodState S t) :
    GoodState (logOp S t e) (t + 1) := by
  obtain ⟨hids, ⟨fa, hfa, hoff⟩, hh⟩ := hg
  refine ⟨?_, ?_, ?_⟩
  · intro p hp
    by_cases hrot : threshold ≤ (activeFile S).data.length
    · simp only [logOp] at hp
      simp only [if_pos hrot] at hp
      rcases mem_ainsert _ _ _ _ hp with h1 | h1
      · rw [h1]; omega
      · rcases mem_newDataFileFs _ _ _ h1 with h2 | h2
        · rw [h2]; omega
        · have := hids p h2; omega
    · simp only [logOp] at hp
      simp only [if_neg hrot] at hp
      rcases mem_ainsert _ _ _ _ hp with h1 | h1
      · have : S.activeId ∈ S.dir.map (·.1) := by
          simpa using ⟨fa, alookup_mem _ _ _ hfa⟩
        have hlt : S.activeId < t := by
          simp only [List.mem_map] at this
          obtain ⟨q, hq, hq2⟩ := this
          have := hids q hq; omega
        rw [h1]; simpa using by omega
      · have := hids p h1; omega
  · obtain ⟨g, h2, hl, ho⟩ := logOp_active e ⟨hids, ⟨fa, hfa, hoff⟩, hh⟩
    exact ⟨⟨g ++ encBytes e, h2⟩, hl, ho⟩
  · intro id b hb
    rw [logOp_dataFiles] at hb
    obtain ⟨hbt, hsome⟩ := hh id b hb
    refine ⟨hbt, ?_⟩
    obtain ⟨f, hf⟩ := Option.isSome_iff_exists.mp hsome
    obtain ⟨tail, htail⟩ := logOp_dir_mono e ⟨hids, ⟨fa, hfa, hoff⟩, hh⟩ id f hf
    simp [htail]

theorem GoodState_hintOp {S : Bitcask} {t : Nat} (kd : keyDirEntry) (hg : GoodState S t) :
    GoodState (hintOp S kd) t := by
  obtain ⟨hids, ⟨fa, hfa, hoff⟩, hh⟩ := hg
  refine ⟨?_, ?_, ?_⟩
  · intro p hp
    simp only [hintOp] at hp
    rcases mem_ainsert _ _ _ _ hp with h1 | h1
    · have := hids _ (alookup_mem _ _ _ hfa)
      rw [h1]
      simpa using this
    · exact hids p h1
  · obtain ⟨h2, hl⟩ := hintOp_dir_data S kd S.activeId fa hfa
    exact ⟨⟨fa.data, h2⟩, hl, hoff⟩
  · intro id b hb
    rw [hintOp_dataFiles] at hb
    obtain ⟨hbt, hsome⟩ := hh id b hb
    obtain ⟨f, hf⟩ := Option.isSome_iff_exists.mp hsome
    obtain ⟨h2, hl⟩ := hintOp_dir_data S kd id f hf
    exact ⟨hbt, by simp [hl]⟩

theorem KeyLive_logOp {S : Bitcask} {t : Nat} {k v : List Nat} (e : entry)
    (hg : GoodState S t) (hl : KeyLive S k v) : KeyLive (logOp S t e) k v := by
  obtain ⟨ke, f, he, hsz, hdf, hdir, hpos, hwin, hval⟩ := hl
  obtain ⟨tail, htail⟩ := logOp_dir_mono e hg ke.fileID f hdir
  refine ⟨ke, ⟨f.data ++ tail, f.hint⟩, ?_, hsz, ?_, htail, hpos, ?_, ?_⟩
  · rw [logOp_keyDir]; exact he
  · rw [logOp_dataFiles]; exact hdf
  · show ke.valuePos.toNat + v.length ≤ (f.data ++ tail).length
    rw [List.length_append]; omega
  · show ((f.data ++ tail).drop ke.valuePos.toNat).take v.length = v
    rw [take_drop_append _ _ _ _ hwin]
    exact hval

theorem KeyLive_hintOp {S : Bitcask} {k v : List Nat} (kd : keyDirEntry)
    (hl : KeyLive S k v) : KeyLive (hintOp S kd) k v := by
  obtain ⟨ke, f, he, hsz, hdf, hdir, hpos, hwin, hval⟩ := hl
  obtain ⟨h2, hlk⟩ := hintOp_dir_data S kd ke.fileID f hdir
  exact ⟨ke, ⟨f.data, h2⟩, he, hsz, hdf, hlk, hpos, hwin, hval⟩

theorem KeyLive_registerHandle {S : Bitcask} {k v : List Nat} (id : Nat)
    (hl : KeyLive S k v) :
    KeyLive { S with dataFiles := ainsert S.dataFiles id true } k v := by
  obtain ⟨ke, f, he, hsz, hdf, hdir, hpos, hwin, hval⟩ := hl
  refine ⟨ke, f, he, hsz, ?_, hdir, hpos, hwin, hval⟩
  show alookup (ainsert S.dataFiles id true) ke.fileID = some true
  by_cases hid : id = ke.fileID
  · subst hid; exact alookup_ainsert_self _ _ _
  · rw [alookup_ainsert_ne _ _ hid]; exact hdf

theorem KeyLive_keyDirInsert {S : Bitcask} {k v : List Nat} (k2 : List Nat) (kd : keyDirEntry)
    (hne : k2 ≠ k) (hl : KeyLive S k v) :
    KeyLive { S with keyDir := ainsert S.keyDir k2 kd } k v := by
  obtain ⟨ke, f, he, hsz, hdf, hdir, hpos, hwin, hval⟩ := hl
  refine ⟨ke, f, ?_, hsz, hdf, hdir, hpos, hwin, hval⟩
  show alookup (ainsert S.keyDir k2 kd) k = some ke
  rw [alookup_ainsert_ne _ _ hne]
  exact he

theorem KeyLive_keyDirErase {S : Bitcask} {k v : List Nat} (k2 : List Nat)
    (hne : k2 ≠ k) (hl : KeyLive S k v) :
    KeyLive { S with keyDir := aerase S.keyDir k2 } k v := by
  obtain ⟨ke, f, he, hsz, hdf, hdir, hpos, hwin, hval⟩ := hl
  refine ⟨ke, f, ?_, hsz, hdf, hdir, hpos, hwin, hval⟩
  show alookup (aerase S.keyDir k2) k = some ke
  rw [alookup_aerase_ne _ hne]
  exact he

theorem GoodState_registerHandle {S : Bitcask} {t : Nat} {id : Nat} (hg : GoodState S t)
    (hsome : (alookup S.dir id).isSome = true) :
    GoodState { S with dataFiles := ainsert S.dataFiles id true } t := by
  obtain ⟨hids, hact, hh⟩ := hg
  refine ⟨hids, hact, ?_⟩
  intro id' b hb
  show b = true ∧ (alookup S.dir id').isSome = true
  by_cases hid : id = id'
  · subst hid
    rw [show alookup (ainsert S.dataFiles id true) id = some true from
      alookup_ainsert_self _ _ _] at hb
    cases hb
    exact ⟨rfl, hsome⟩
  · have hb2 : alookup (ainsert S.dataFiles id true) id' = some b := hb
    rw [alookup_ainsert_ne _ _ hid] at hb2
    exact hh id' b hb2

theorem GoodState_putOp {S : Bitcask} {t : Nat} (k v : List Nat) (hg : GoodState S t) :
    GoodState (putOp S t k v) (t + 1) := by
  have h1 := GoodState_logOp ⟨0, t % 2 ^ 32, k.length % 2 ^ 32, v.length % 2 ^ 32, k, v⟩ hg
  simp only [putOp]
  cases hm : alookup (logOp S t ⟨0, t % 2 ^ 32, k.length % 2 ^ 32, v.length % 2 ^ 32,
      k, v⟩).dataFiles (logOp S t ⟨0, t % 2 ^ 32, k.length % 2 ^ 32, v.length % 2 ^ 32,
      k, v⟩).activeId with
  | some b =>
      simp only [hm]
      exact GoodState_hintOp _ h1
  | none =>
      simp only [hm]
      obtain ⟨f, hf, _⟩ := h1.2.1
      exact GoodState_hintOp _ (GoodState_registerHandle h1 (by rw [hf]; rfl))

theorem GoodState_deleteOp {S S2 : Bitcask} {t : Nat} (k : List Nat) (hg : GoodState S t)
    (h : deleteOp S t k = some S2) : GoodState S2 (t + 1) := by
  rw [deleteOp] at h
  cases hm : alookup S.keyDir k with
  | none =>
      rw [hm] at h
      cases h
      exact hg.mono (by omega)
  | some e0 =>
      rw [hm] at h
      cases h

theorem KeyLive_putOp {S : Bitcask} {t : Nat} {k v : List Nat} (k2 v2 : List Nat)
    (hg : GoodState S t) (hl : KeyLive S k v) (hne : k2 ≠ k) :
    KeyLive (putOp S t k2 v2) k v := by
  have h1 := KeyLive_logOp ⟨0, t % 2 ^ 32, k2.length % 2 ^ 32, v2.length % 2 ^ 32, k2, v2⟩ hg hl
  simp only [putOp]
  cases hm : alookup (logOp S t ⟨0, t % 2 ^ 32, k2.length % 2 ^ 32, v2.length % 2 ^ 32,
      k2, v2⟩).dataFiles (logOp S t ⟨0, t % 2 ^ 32, k2.length % 2 ^ 32, v2.length % 2 ^ 32,
      k2, v2⟩).activeId with
  | some b =>
      simp only [hm]
      exact KeyLive_keyDirInsert _ _ hne (KeyLive_hintOp _ h1)
  | none =>
      simp only [hm]
      exact KeyLive_keyDirInsert _ _ hne (KeyLive_hintOp _ (KeyLive_registerHandle _ h1))

theorem KeyLive_deleteOp {S S2 : Bitcask} {t : Nat} {k v : List Nat} (k2 : List Nat)
    (hl : KeyLive S k v) (h : deleteOp S t k2 = some S2) : KeyLive S2 k v := by
  rw [deleteOp] at h
  cases hm : alookup S.keyDir k2 with
  | none =>
      rw [hm] at h
      cases h
      exact hl
  | some e0 =>
      rw [hm] at h
      cases h

theorem KeyLive_final (S2 : Bitcask) (k v : List Nat) (vsz : Nat) (ts : Nat)
    (dataC : List Nat) (h2 : Option (List Nat))
    (hvsz : vsz = v.length)
    (hdf : alookup S2.dataFiles S2.activeId = some true)
    (hdir : alookup S2.dir S2.activeId = some ⟨dataC, h2⟩)
    (hoff : S2.activeOffset = (dataC.length : Int))
    (hsuffix : ∃ pre, dataC = pre ++ v) :
    KeyLive { hintOp S2 ⟨S2.activeId, vsz, S2.activeOffset - ((vsz : Nat) : Int), ts, k⟩ with
        keyDir := ainsert
          (hintOp S2 ⟨S2.activeId, vsz, S2.activeOffset - ((vsz : Nat) : Int), ts, k⟩).keyDir k
          ⟨S2.activeId, vsz, S2.activeOffset - ((vsz : Nat) : Int), ts, k⟩ } k v := by
  obtain ⟨pre, hpre⟩ := hsuffix
  obtain ⟨h3, hdir2⟩ := hintOp_dir_data S2 _ S2.activeId ⟨dataC, h2⟩ hdir
  have hlen : dataC.length = pre.length + v.length := by rw [hpre]; simp
  have hpos : S2.activeOffset - ((vsz : Nat) : Int) = (pre.length : Int) := by
    rw [hoff, hvsz, hlen]; push_cast; ring
  refine ⟨⟨S2.activeId, vsz, S2.activeOffset - ((vsz : Nat) : Int), ts, k⟩, ⟨dataC, h3⟩,
    alookup_ainsert_self _ _ _, hvsz, hdf, hdir2, ?_, ?_, ?_⟩
  · show (0 : Int) ≤ S2.activeOffset - ((vsz : Nat) : Int)
    rw [hpos]
    exact Int.natCast_nonneg _
  · show (S2.activeOffset - ((vsz : Nat) : Int)).toNat + v.length ≤ dataC.length
    rw [hpos]
    simp [hlen]
  · show (dataC.drop (S2.activeOffset - ((vsz : Nat) : Int)).toNat).take v.length = v
    rw [hpos]
    simp only [Int.toNat_natCast]
    rw [hpre, List.drop_left, List.take_length]

theorem KeyLive_putOp_self {S : Bitcask} {t : Nat} (k v : List Nat) (hg : GoodState S t)
    (hkb : k.length ≤ maxKsz) (hvb : v.length ≤ maxVsz) :
    KeyLive (putOp S t k v) k v := by
  have hkm : k.length % 2 ^ 32 = k.length := by
    have h := hkb; simp only [maxKsz] at h; omega
  have hvm : v.length % 2 ^ 32 = v.length := by
    have h := hvb; simp only [maxVsz] at h; omega
  have hksz : (⟨0, t % 2 ^ 32, k.length % 2 ^ 32, v.length % 2 ^ 32, k, v⟩ : entry).ksz
      ≤ maxKsz := by
    show k.length % 2 ^ 32 ≤ maxKsz
    rw [hkm]; exact hkb
  have hvsz : (⟨0, t % 2 ^ 32, k.length % 2 ^ 32, v.length % 2 ^ 32, k, v⟩ : entry).vsz
      ≤ maxVsz := by
    show v.length % 2 ^ 32 ≤ maxVsz
    rw [hvm]; exact hvb
  have hsuf : ∃ pre0, encBytes ⟨0, t % 2 ^ 32, k.length % 2 ^ 32, v.length % 2 ^ 32, k, v⟩
      = pre0 ++ v := by
    refine ⟨be32enc (crc32 (payload ⟨0, t % 2 ^ 32, k.length % 2 ^ 32, v.length % 2 ^ 32, k, v⟩))
      ++ (be32enc (t % 2 ^ 32) ++ (be32enc (k.length % 2 ^ 32)
        ++ (be32enc (v.length % 2 ^ 32) ++ k))), ?_⟩
    rw [encBytes_eq _ hksz hvsz, payload]
    simp [List.append_assoc]
  have h1 := GoodState_logOp ⟨0, t % 2 ^ 32, k.length % 2 ^ 32, v.length % 2 ^ 32, k, v⟩ hg
  obtain ⟨g, h2, hact, hoff2⟩ :=
    logOp_active ⟨0, t % 2 ^ 32, k.length % 2 ^ 32, v.length % 2 ^ 32, k, v⟩ hg
  obtain ⟨pre0, hpre0⟩ := hsuf
  simp only [putOp]
  cases hm : alookup (logOp S t ⟨0, t % 2 ^ 32, k.length % 2 ^ 32, v.length % 2 ^ 32,
      k, v⟩).dataFiles (logOp S t ⟨0, t % 2 ^ 32, k.length % 2 ^ 32, v.length % 2 ^ 32,
      k, v⟩).activeId with
  | some b =>
      simp only [hm]
      have hb := (h1.2.2 _ b hm).1
      subst hb
      refine KeyLive_final _ k v _ _ (g ++ encBytes ⟨0, t % 2 ^ 32, k.length % 2 ^ 32,
        v.length % 2 ^ 32, k, v⟩) h2 hvm hm hact hoff2 ?_
      exact ⟨g ++ pre0, by rw [hpre0]; simp [List.append_assoc]⟩
  | none =>
      simp only [hm]
      refine KeyLive_final _ k v _ _ (g ++ encBytes ⟨0, t % 2 ^ 32, k.length % 2 ^ 32,
        v.length % 2 ^ 32, k, v⟩) h2 hvm (alookup_ainsert_self _ _ _) hact hoff2 ?_
      exact ⟨g ++ pre0, by rw [hpre0]; simp [List.append_assoc]⟩

/-! ### In-session call sequences -/

/-- One in-session mutating engine call. -/
inductive Op where
  | put (k v : List Nat)
  | del (k : List Nat)
deriving DecidableEq, Repr

/-- One call at clock second `t`: `Put` always returns; `Delete` returns
only when its key is absent (a present key self-deadlocks in `log`). -/
def applyOp (S : Bitcask) (t : Nat) : Op → Option Bitcask
  | .put k v => some (putOp S t k v)
  | .del k => deleteOp S t k

/-- Run calls at strictly increasing clock seconds; a call that never
returns (`none`) makes every later call unreachable. -/
def runOps (S : Bitcask) (t : Nat) : List Op → Option Bitcask
  | [] => some S
  | o :: os =>
    match applyOp S t o with
    | some S2 => runOps S2 (t + 1) os
    | none => none

/-- The call does not touch key `k`. -/
def avoidsKey (k : List Nat) : Op → Bool
  | .put k2 _ => k2 != k
  | .del k2 => k2 != k

theorem GoodState_applyOp {S S2 : Bitcask} {t : Nat} (o : Op) (hg : GoodState S t)
    (h : applyOp S t o = some S2) : GoodState S2 (t + 1) := by
  cases o with
  | put k v =>
      simp only [applyOp] at h
      cases h
      exact GoodState_putOp _ _ hg
  | del k =>
      simp only [applyOp] at h
      exact GoodState_deleteOp _ hg h

theorem KeyLive_applyOp {S S2 : Bitcask} {t : Nat} {k v : List Nat} (o : Op)
    (hg : GoodState S t) (hl : KeyLive S k v) (ha : avoidsKey k o = true)
    (h : applyOp S t o = some S2) : KeyLive S2 k v := by
  cases o with
  | put k2 v2 =>
      have hne : k2 ≠ k := by simpa [avoidsKey] using ha
      simp only [applyOp] at h
      cases h
      exact KeyLive_putOp _ _ hg hl hne
  | del k2 =>
      simp only [applyOp] at h
      exact KeyLive_deleteOp _ hl h

theorem KeyLive_runOps {k v : List Nat} (ops : List Op) :
    ∀ S S2 t, GoodState S t → KeyLive S k v → (∀ o ∈ ops, avoidsKey k o = true) →
      runOps S t ops = some S2 → KeyLive S2 k v := by
  induction ops with
  | nil =>
      intro S S2 t _ hl _ hrun
      rw [runOps] at hrun
      cases hrun
      exact hl
  | cons o os ih =>
      intro S S2 t hg hl hav hrun
      rw [runOps] at hrun
      cases hm : applyOp S t o with
      | none =>
          rw [hm] at hrun
          cases hrun
      | some S3 =>
          rw [hm] at hrun
          exact ih S3 S2 (t + 1) (GoodState_applyOp o hg hm)
            (KeyLive_applyOp o hg hl (hav o (List.mem_cons_self _ _)) hm)
            (fun o2 ho2 => hav o2 (List.mem_cons_of_mem _ ho2)) hrun

theorem readAt_zero (data : List Nat) (pos : Int) : readAt data pos 0 = [] := by
  rw [readAt]
  split <;> simp

theorem hasKey_insert (X : Bitcask) (k : List Nat) (kd : keyDirEntry) :
    hasKeyOp { X with keyDir := ainsert X.keyDir k kd } k = true := by
  show (alookup (ainsert X.keyDir k kd) k).isSome = true
  rw [alookup_ainsert_self]
  rfl

theorem get_insert_zero (X : Bitcask) (k : List Nat) (kd : keyDirEntry)
    (hsz : kd.valueSz = 0) (hdf : alookup X.dataFiles kd.fileID = some true) :
    getOp { X with keyDir := ainsert X.keyDir k kd } k = (k, [], none) := by
  have h1 : alookup ({ X with keyDir := ainsert X.keyDir k kd }).keyDir k = some kd :=
    alookup_ainsert_self _ _ _
  simp only [getOp, h1, hdf, hsz, readAt_zero]

/-! ### Claim theorems about the engine -/

/-- C1 (code bug): per the spec, `Put("a","v"); Delete("a"); Sync; Close`
must leave a directory whose data file holds the Put record followed by the
tombstone Delete encodes (timestamp 12, zero `vsz`, no hint record) and whose
hint file holds only the Put's hint entry, with `"a"` gone from the live
mapping at close.  Reopening that directory resurrects the key with its old
value: `load` re-inserts the stale hint entry, and even the data-scan
fallback merely skips the zero-`vsz` tombstone instead of removing the entry
it should delete — the final conjunct runs the scan loop over the file bytes
and the key survives, bound to the older Put timestamp 11 although the
tombstone's timestamp 12 is newer.  (The code cannot even produce this
directory itself: Delete of a present key deadlocks inside `log` before
appending the tombstone, so reopen convergence fails for this execution
either way.) -/
theorem C1_reopen_resurrects_deleted_key :
    hasKeyOp (openOp 13 (ainsert (closeOp (syncOp (putOp (openOp 10 []) 11 [97] [118]))) 10
      ⟨((alookup (closeOp (syncOp (putOp (openOp 10 []) 11 [97] [118]))) 10).getD
          ⟨[], none⟩).data ++ encBytes ⟨0, 12 % 2 ^ 32, 1 % 2 ^ 32, 0, [97], []⟩,
        ((alookup (closeOp (syncOp (putOp (openOp 10 []) 11 [97] [118]))) 10).getD
          ⟨[], none⟩).hint⟩)) [97] = true ∧
    getOp (openOp 13 (ainsert (closeOp (syncOp (putOp (openOp 10 []) 11 [97] [118]))) 10
      ⟨((alookup (closeOp (syncOp (putOp (openOp 10 []) 11 [97] [118]))) 10).getD
          ⟨[], none⟩).data ++ encBytes ⟨0, 12 % 2 ^ 32, 1 % 2 ^ 32, 0, [97], []⟩,
        ((alookup (closeOp (syncOp (putOp (openOp 10 []) 11 [97] [118]))) 10).getD
          ⟨[], none⟩).hint⟩)) [97] = ([97], [118], none) ∧
    alookup (scanLoop 10
      (((alookup (closeOp (syncOp (putOp (openOp 10 []) 11 [97] [118]))) 10).getD
          ⟨[], none⟩).data ++ encBytes ⟨0, 12 % 2 ^ 32, 1 % 2 ^ 32, 0, [97], []⟩).length []
      (((alookup (closeOp (syncOp (putOp (openOp 10 []) 11 [97] [118]))) 10).getD
          ⟨[], none⟩).data ++ encBytes ⟨0, 12 % 2 ^ 32, 1 % 2 ^ 32, 0, [97], []⟩)) [97]
      = some ⟨10, 1, 0, 11, [97]⟩ := by
  refine ⟨by decide, by decide, by decide⟩

/-- C2 (code bug): a Put whose key exceeds `maxKsz` is not rejected: the
oversize error from `encode` is discarded inside `log`, nothing is appended
to the active file, Put returns nil, and the keydir receives an entry whose
`valuePos` is `-1` — it points at data that was never written. -/
theorem C2_oversized_put_installs_entry :
    alookup (putOp (openOp 10 []) 11 (List.replicate 1025 97) [118]).keyDir
        (List.replicate 1025 97)
      = some ⟨10, 1, -1, 11, List.replicate 1025 97⟩ ∧
    ((alookup (putOp (openOp 10 []) 11 (List.replicate 1025 97) [118]).dir 10).getD
        ⟨[], none⟩).data = [] := by
  refine ⟨by decide, by decide⟩

/-- C3 (code bug): a key living in a sealed file reads back fine before
Merge, but after Merge its keydir entry points at the scratch engine's file
id, which is absent from the file table, so Get dereferences a nil handle
(and in the real code Merge already self-deadlocks by calling Get, which
takes the read lock, while holding the write lock).  The key set itself is
unchanged. -/
theorem C3_merge_breaks_read_path :
    getOp (openOp 12 (closeOp (putOp (openOp 10 []) 11 [97] [118]))) [97]
      = ([97], [118], none) ∧
    (getOp (mergeOp (openOp 12 (closeOp (putOp (openOp 10 []) 11 [97] [118]))) 13) [97]).2.2
      = some GetErr.nilFile ∧
    keysOp (mergeOp (openOp 12 (closeOp (putOp (openOp 10 []) 11 [97] [118]))) 13)
      = keysOp (openOp 12 (closeOp (putOp (openOp 10 []) 11 [97] [118]))) := by
  refine ⟨by decide, by decide, by decide⟩

/-- C4: after an in-bounds `Put(k,v)` on a reachable state, any sequence of
later Puts and Deletes on other keys that the program actually completes (a
Delete of a key that is live self-deadlocks and never returns, so no Get can
follow it) leaves `Get(k)` returning `(k, v)` with no error; overwrite
dominance is the instance where `S` is the state right after `Put(k,v1)` and
the later put stores `v2`. -/
theorem C4_put_then_get (S : Bitcask) (t : Nat) (k v : List Nat) (ops : List Op)
    (S2 : Bitcask) (hg : GoodState S t) (hkb : k.length ≤ maxKsz)
    (hvb : v.length ≤ maxVsz) (hav : ∀ o ∈ ops, avoidsKey k o = true)
    (hrun : runOps (putOp S t k v) (t + 1) ops = some S2) :
    getOp S2 k = (k, v, none) :=
  getOp_of_KeyLive (KeyLive_runOps ops _ _ _ (GoodState_putOp k v hg)
    (KeyLive_putOp_self k v hg hkb hvb) hav hrun)

theorem C4_put_then_get_witness :
    getOp ((runOps (putOp (openOp 10 []) 11 [97] [118]) 12
        [Op.put [98] [119], Op.del [99], Op.put [97, 99] [1, 2]]).getD (openOp 10 [])) [97]
      = ([97], [118], none) :=
  C4_put_then_get (openOp 10 []) 11 [97] [118]
    [Op.put [98] [119], Op.del [99], Op.put [97, 99] [1, 2]]
    ((runOps (putOp (openOp 10 []) 11 [97] [118]) 12
        [Op.put [98] [119], Op.del [99], Op.put [97, 99] [1, 2]]).getD (openOp 10 []))
    ⟨by decide, ⟨⟨[], some []⟩, rfl, rfl⟩, fun id b h => nomatch h⟩
    (by decide) (by decide) (by decide) (by decide)

/-- C8: Get of a key with no keydir entry returns the key itself, an empty
value and no error. -/
theorem C8_get_missing_key (S : Bitcask) (key : List Nat)
    (h : alookup S.keyDir key = none) : getOp S key = (key, [], none) := by
  simp only [getOp, h]

theorem C8_get_missing_key_witness :
    getOp (openOp 10 []) [97] = ([97], [], none) :=
  C8_get_missing_key (openOp 10 []) [97] (by decide)

/-- C9 (code bug): Delete of a key absent from the keydir does return success
without appending anything (first conjunct: the state is returned unchanged),
but the claimed tombstone-then-no-op behaviour for a present key is
unreachable: Delete builds the tombstone and calls `log` while already
holding the write lock `db.mu`, and `log` re-acquires `db.mu` — a Go mutex is
not reentrant, so Delete of a present key deadlocks before appending
anything and never returns (second conjunct), and the second Delete of the
claim is never even issued. -/
theorem C9_delete_present_key_deadlocks :
    deleteOp (openOp 10 []) 11 [97] = some (openOp 10 []) ∧
    deleteOp (putOp (openOp 10 []) 11 [97] [118]) 12 [97] = none := by
  refine ⟨by decide, by decide⟩

/-- C10: `Put(k, "")` always succeeds and installs a keydir entry, so the key
is immediately reported live — `HasKey` is true and `Get` returns the key
with an empty value and no error — even though the record appended to disk
has `vsz = 0`, the exact shape the format defines as a tombstone, which the
load scan skips (final conjunct: scanning a buffer holding precisely that
record inserts nothing). -/
theorem C10_put_empty_value (S : Bitcask) (t : Nat) (k : List Nat)
    (hdf : ∀ id b, alookup S.dataFiles id = some b → b = true)
    (hkb : k.length ≤ maxKsz) :
    hasKeyOp (putOp S t k []) k = true ∧
    getOp (putOp S t k []) k = (k, [], none) ∧
    (∀ fid n kd, scanLoop fid n kd
      (encBytes ⟨0, t % 2 ^ 32, k.length % 2 ^ 32, 0, k, []⟩) = kd) := by
  have hkm : k.length % 2 ^ 32 = k.length := by
    have h := hkb; simp only [maxKsz] at h; omega
  have hksz : (⟨0, t % 2 ^ 32, k.length % 2 ^ 32, 0, k, []⟩ : entry).ksz ≤ maxKsz := by
    show k.length % 2 ^ 32 ≤ maxKsz
    rw [hkm]; exact hkb
  have hvsz : (⟨0, t % 2 ^ 32, k.length % 2 ^ 32, 0, k, []⟩ : entry).vsz ≤ maxVsz := by
    show (0 : Nat) ≤ maxVsz
    exact Nat.zero_le _
  refine ⟨?_, ?_, ?_⟩
  · simp only [putOp]
    cases hm : alookup (logOp S t ⟨0, t % 2 ^ 32, k.length % 2 ^ 32, ([] : List Nat).length % 2 ^ 32,
        k, []⟩).dataFiles (logOp S t ⟨0, t % 2 ^ 32, k.length % 2 ^ 32,
        ([] : List Nat).length % 2 ^ 32, k, []⟩).activeId with
    | some b => simp only [hm]; exact hasKey_insert _ _ _
    | none => simp only [hm]; exact hasKey_insert _ _ _
  · simp only [putOp]
    cases hm : alookup (logOp S t ⟨0, t % 2 ^ 32, k.length % 2 ^ 32, ([] : List Nat).length % 2 ^ 32,
        k, []⟩).dataFiles (logOp S t ⟨0, t % 2 ^ 32, k.length % 2 ^ 32,
        ([] : List Nat).length % 2 ^ 32, k, []⟩).activeId with
    | some b =>
        simp only [hm]
        have hm2 := hm
        rw [logOp_dataFiles] at hm2
        have hb := hdf _ _ hm2
        subst hb
        refine get_insert_zero _ _ _ rfl ?_
        exact hm
    | none =>
        simp only [hm]
        refine get_insert_zero _ _ _ rfl ?_
        exact alookup_ainsert_self _ _ _
  · intro fid n kd
    have hts : t % 2 ^ 32 < 2 ^ 32 := Nat.mod_lt _ (by norm_num)
    have hdec := decodeRaw_encBytes ⟨0, t % 2 ^ 32, k.length % 2 ^ 32, 0, k, []⟩
      (by show k.length % 2 ^ 32 = k.length; exact hkm) rfl hksz hvsz hts
    have hlen : (encBytes ⟨0, t % 2 ^ 32, k.length % 2 ^ 32, 0, k, []⟩).length
        = 16 + k.length + 0 := by
      rw [encBytes_length _ hksz hvsz]
      rfl
    have hm1 : ∃ m, (encBytes ⟨0, t % 2 ^ 32, k.length % 2 ^ 32, 0, k, []⟩).length
        = m + 1 := ⟨15 + k.length, by rw [hlen]; omega⟩
    obtain ⟨m, hm⟩ := hm1
    have hne : encBytes ⟨0, t % 2 ^ 32, k.length % 2 ^ 32, 0, k, []⟩ ≠ [] := by
      intro hc
      rw [hc] at hm
      simp at hm
    rw [scanLoop, hm, scanLoopAux, if_neg hne, hdec]
    simp only []
    cases m with
    | zero => rfl
    | succ m2 => rw [scanLoopAux]; rfl

theorem C10_put_empty_value_witness :
    hasKeyOp (putOp (openOp 10 []) 11 [97] []) [97] = true ∧
    getOp (putOp (openOp 10 []) 11 [97] []) [97] = ([97], [], none) ∧
    (∀ fid n kd, scanLoop fid n kd
      (encBytes ⟨0, 11 % 2 ^ 32, (1 : Nat) % 2 ^ 32, 0, [97], []⟩) = kd) := by
  have h := C10_put_empty_value (openOp 10 []) 11 [97]
    (fun id b hb => nomatch hb) (by decide)
  exact h

end Gkvd
